import Mathlib

/-!
Verification development for the columnar partition-and-reshape engine
described by the repository specification, together with embeddings of the
two scratch scripts (a keyword-argument demo and a when/then/otherwise
column expression).  The frame engine of the specification (sections 3
and 4) is realised in the scripts only through calls into an external
dataframe library, so its components are modelled here from the
specification text; the script-level logic (keyword binding, the literal
pipeline, the conditional column expression) is translated from the
Python sources.
-/

/-- Scalar types of the data model (spec section 3). -/
inductive ScalarType
  | integer
  | float
  | string
  | boolean
deriving DecidableEq

/-- Scalar values, including null.  Floating-point values are modelled
abstractly as rationals; no claim exercises them. -/
inductive Value
  | int (n : Int)
  | float (q : Rat)
  | str (s : String)
  | bool (b : Bool)
  | null
deriving DecidableEq

/-- A row of a Frame, in schema column order. -/
abbrev Row := List Value

/-- A key tuple: one value per key column (spec section 3). -/
abbrev KeyTuple := List Value

/-- Error taxonomy of spec section 7. -/
inductive DFError
  | unknownColumn
  | schemaMismatch
  | columnSetOverlap
  | incompatibleValueTypes
  | typeMismatch
deriving DecidableEq

/-- Modelled from the spec: a Frame is an ordered collection of named,
typed, equal-length columns (spec section 3).  It is represented here
row-major: the ordered (name, type) schema plus the list of rows; the
column of values for a given name is recoverable from this data. -/
structure Frame where
  schema : List (String × ScalarType)
  rows : List Row
deriving DecidableEq

instance instDecidableEqExcept [DecidableEq ε] [DecidableEq α] :
    DecidableEq (Except ε α) := fun x y =>
  match x, y with
  | .ok a, .ok b =>
    if h : a = b then isTrue (by rw [h])
    else isFalse (by intro hc; injection hc; contradiction)
  | .error a, .error b =>
    if h : a = b then isTrue (by rw [h])
    else isFalse (by intro hc; injection hc; contradiction)
  | .ok _, .error _ => isFalse (by intro hc; cases hc)
  | .error _, .ok _ => isFalse (by intro hc; cases hc)

/-- The ordered column names of a Frame. -/
def Frame.names (f : Frame) : List String := f.schema.map Prod.fst

/-- Frame well-formedness (spec section 3): unique column names and every
row of the declared width. -/
def Frame.wf (f : Frame) : Prop :=
  f.names.Nodup ∧ ∀ r ∈ f.rows, r.length = f.schema.length

/-- Index of the first schema entry with a given name. -/
def colIdxAux (n : String) : List (String × ScalarType) → Option Nat
  | [] => none
  | p :: rest => if p.1 = n then some 0 else (colIdxAux n rest).map (· + 1)

/-- Resolve a column name to its position in the schema (spec section 9:
name-to-index lookup resolved at call time). -/
def colIdx (f : Frame) (n : String) : Option Nat := colIdxAux n f.schema

/-- Resolve a list of names to positions, failing if any name is absent. -/
def optMapM (g : α → Option β) : List α → Option (List β)
  | [] => some []
  | a :: l =>
    match g a, optMapM g l with
    | some b, some bs => some (b :: bs)
    | _, _ => none

/-- Positions of a list of key columns in a Frame. -/
def keyIdxs (f : Frame) (K : List String) : Option (List Nat) :=
  optMapM (colIdx f) K

/-- The key tuple of a row at the given column positions. -/
def rowKey (is : List Nat) (r : Row) : KeyTuple :=
  is.map (fun i => r.getD i Value.null)

/-- Deduplication keeping the first occurrence of each element, in the
recursion-friendly form used by the proofs below. -/
def dedupWF [DecidableEq α] : List α → List α
  | [] => []
  | x :: xs => x :: dedupWF (xs.filter (fun y => decide (y ≠ x)))
termination_by l => l.length
decreasing_by
  simpa using Nat.lt_succ_of_le (List.length_filter_le _ _)

/-- Deduplication keeping the first occurrence of each element, with an
accumulator of already-seen elements (structural recursion, so concrete
runs reduce inside the kernel). -/
def dedupFirstAux [DecidableEq α] (seen : List α) : List α → List α
  | [] => []
  | x :: xs =>
    if x ∈ seen then dedupFirstAux seen xs
    else x :: dedupFirstAux (x :: seen) xs

/-- Deduplication keeping the first occurrence of each element. -/
def dedupFirst [DecidableEq α] (l : List α) : List α := dedupFirstAux [] l

/-- Modelled from the spec: GroupKeyExtractor (spec section 4.1) — the
distinct key tuples over the key columns, deduplicated, in
first-occurrence order; `UnknownColumn` if a key column is absent.  The
source script only invokes the grouping of the external library here. -/
def GroupKeyExtractor.extract (f : Frame) (K : List String) :
    Except DFError (List KeyTuple) :=
  match keyIdxs f K with
  | none => .error DFError.unknownColumn
  | some is => .ok (dedupFirst (f.rows.map (rowKey is)))

/-- Modelled from the spec: PartitionFilter (spec section 4.2) — the rows
whose key-column values equal the key tuple (null equals null), with the
input schema and row order preserved.  The source script only invokes the
filter of the external library here. -/
def PartitionFilter.filter (f : Frame) (K : List String) (t : KeyTuple) :
    Except DFError Frame :=
  match keyIdxs f K with
  | none => .error DFError.unknownColumn
  | some is =>
    .ok { schema := f.schema
          rows := f.rows.filter (fun r => decide (rowKey is r = t)) }

/-- Modelled from the spec: Concatenator (spec section 4.3) — the rows of
the input Frames in input order, requiring equal schemas.  The source
script only invokes the concat of the external library here. -/
def Concatenator.concat : List Frame → Except DFError Frame
  | [] => .error DFError.schemaMismatch
  | f :: rest =>
    if rest.all (fun g => decide (g.schema = f.schema)) then
      .ok { schema := f.schema, rows := (f :: rest).flatMap Frame.rows }
    else
      .error DFError.schemaMismatch

/-- Schema entries paired with their absolute column positions, starting
at a given offset. -/
def enumPairs (k : Nat) : List (String × ScalarType) → List (Nat × String × ScalarType)
  | [] => []
  | p :: rest => (k, p.1, p.2) :: enumPairs (k + 1) rest

/-- The value-column entries of a schema, in schema order, each with its
absolute column position (spec section 4.4: one output row per value
column in schema order). -/
def Unpivoter.valueEntries (k : Nat) (rs : List (String × ScalarType)) (S : List String) :
    List (Nat × String × ScalarType) :=
  (enumPairs k rs).filter (fun e => decide (e.2.1 ∈ S))

/-- Modelled from the spec: Unpivoter / melt (spec section 4.4) — output
schema is the index columns, then a String "variable" column, then a
"value" column; for each input row in order one output row is emitted per
value column in schema order.  Strict typing is the documented coercion
policy: heterogeneous value-column types fail with
`IncompatibleValueTypes`.  No source script exercises this component. -/
def Unpivoter.unpivot (f : Frame) (icols vcols : List String) :
    Except DFError Frame :=
  match keyIdxs f icols, keyIdxs f vcols with
  | some iis, some _ =>
    if icols.any (fun c => decide (c ∈ vcols)) then
      .error DFError.columnSetOverlap
    else
      let entries := Unpivoter.valueEntries 0 f.schema vcols
      let vtype := ((entries.head?.map (fun e => e.2.2)).getD ScalarType.string)
      if entries.all (fun e => decide (e.2.2 = vtype)) then
        .ok { schema :=
                iis.map (fun i => f.schema.getD i ("", ScalarType.string)) ++
                  [("variable", ScalarType.string), ("value", vtype)]
              rows :=
                f.rows.flatMap (fun r =>
                  entries.map (fun e =>
                    rowKey iis r ++ [Value.str e.2.1, r.getD e.1 Value.null])) }
      else
        .error DFError.incompatibleValueTypes
  | _, _ => .error DFError.unknownColumn

/-- Conflict policies for Pivoter (spec section 4.5); `first` is the
default and the only policy required, `last` is an allowed extension. -/
inductive ConflictPolicy
  | first
  | last
deriving DecidableEq

/-- Rendering of a scalar value as a column name for Pivoter. -/
def Value.asString : Value → String
  | .int n => toString n
  | .float q => toString q
  | .str s => s
  | .bool b => toString b
  | .null => "null"

/-- Modelled from the spec: Pivoter (spec section 4.5) — one output column
per distinct variable value in first-occurrence order, one output row per
distinct index value in first-occurrence order; each cell takes the value
of the matching row selected by the conflict policy, or null when no row
matches.  No source script exercises this component. -/
def Pivoter.pivot (f : Frame) (icol vcol wcol : String) (policy : ConflictPolicy) :
    Except DFError Frame :=
  match colIdx f icol, colIdx f vcol, colIdx f wcol with
  | some ii, some vi, some wi =>
    let vars := dedupFirst (f.rows.map (fun r => r.getD vi Value.null))
    let idxs := dedupFirst (f.rows.map (fun r => r.getD ii Value.null))
    let ity := (f.schema.getD ii ("", ScalarType.string)).2
    let wty := (f.schema.getD wi ("", ScalarType.string)).2
    let cell := fun (iv v : Value) =>
      let ms := f.rows.filter (fun r =>
        decide (r.getD ii Value.null = iv ∧ r.getD vi Value.null = v))
      let chosen := match policy with
        | .first => ms.head?
        | .last => ms.getLast?
      (chosen.map (fun r => r.getD wi Value.null)).getD Value.null
    .ok { schema := (icol, ity) :: vars.map (fun v => (v.asString, wty))
          rows := idxs.map (fun iv => iv :: vars.map (fun v => cell iv v)) }
  | _, _, _ => .error DFError.unknownColumn

/-- State of the grouping script: the source frame and the two bindings
the pipeline assigns (the key tuples and the reassembled frame). -/
structure ScratchEnv where
  mtcars : Frame
  parms : List KeyTuple
  df : Frame

/-- The group-by / per-key filter / concat pipeline of the grouping
script, as explicit state passing: the key tuples over (cyl, gear) are
extracted from the source frame, the source frame is filtered once per
key tuple, and the resulting frames are concatenated; the script rebinds
its other names and never writes to the source frame. -/
def runScratchPipeline (e : ScratchEnv) : ScratchEnv :=
  let keys :=
    match GroupKeyExtractor.extract e.mtcars ["cyl", "gear"] with
    | .ok ks => ks
    | .error _ => []
  let parts := keys.map (fun t =>
    match PartitionFilter.filter e.mtcars ["cyl", "gear"] t with
    | .ok g => g
    | .error _ => e.mtcars)
  let newdf :=
    match Concatenator.concat parts with
    | .ok g => g
    | .error _ => e.df
  { e with parms := keys, df := newdf }

/-- Values appearing in the keyword-argument demo script. -/
inductive PyVal
  | int (n : Int)
  | str (s : String)
deriving DecidableEq

/-- Rendering of a value inside the formatted message of the demo script. -/
def pyShow : PyVal → String
  | .int n => toString n
  | .str s => s

/-- Result of one call of `doit`: the printed message, the residual
keyword arguments, and the return value. -/
structure DoitResult where
  message : String
  residual : List (String × PyVal)
  ret : Option PyVal
deriving DecidableEq

/-- First binding of a keyword in a keyword-argument dictionary. -/
def lookupKw (kwargs : List (String × PyVal)) (k : String) : Option PyVal :=
  (kwargs.find? (fun p => decide (p.1 = k))).map Prod.snd

/-- The `doit` function of the demo script: keyword parameters `a` and
`b` with string defaults, all other keywords collected into `residual`;
it formats and prints a message and returns `None`. -/
def doit (kwargs : List (String × PyVal)) : DoitResult :=
  let a := (lookupKw kwargs "a").getD (PyVal.str "blah")
  let b := (lookupKw kwargs "b").getD (PyVal.str "blech")
  { message := "This is a test... a: " ++ pyShow a ++ "; b: " ++ pyShow b
    residual := kwargs.filter (fun p => decide (p.1 ≠ "a" ∧ p.1 ≠ "b"))
    ret := none }

/-- The three keyword dictionaries of the demo script. -/
def dictList : List (List (String × PyVal)) :=
  [[("a", PyVal.int 1), ("b", PyVal.int 2), ("c", PyVal.int (-1))],
   [("a", PyVal.str "foo"), ("b", PyVal.str "bar")],
   [("b", PyVal.str "hmm")]]

/-- The results binding of the demo script: the return value of doit mapped over
the dictionaries. -/
def results : List (Option PyVal) := dictList.map (fun d => (doit d).ret)

/-- The single-column frame of the conditional-expression script. -/
def scratchTestFrame : Frame :=
  { schema := [("test", ScalarType.string)]
    rows := [[Value.str "a"], [Value.str "b"], [Value.str "c"]] }

/-- The when/then/otherwise expression of the conditional-expression
script evaluated over a frame: where the "test" column equals "a" the
result is the literal astring, otherwise it is the value of the test
column. -/
def whenThenOtherwise (f : Frame) : List Value :=
  let i := (colIdx f "test").getD 0
  f.rows.map (fun r =>
    if r.getD i Value.null = Value.str "a" then Value.str "astring"
    else r.getD i Value.null)

theorem mem_dedupWF [DecidableEq α] (a : α) (l : List α) :
    a ∈ dedupWF l ↔ a ∈ l := by
  induction l using dedupWF.induct with
  | case1 => simp [dedupWF]
  | case2 x xs ih =>
    rw [dedupWF]
    by_cases hax : a = x
    · subst hax; simp
    · simp only [List.mem_cons, ih, List.mem_filter, decide_eq_true_eq]
      constructor
      · rintro (h | ⟨h, _⟩)
        · exact absurd h hax
        · exact Or.inr h
      · rintro (h | h)
        · exact absurd h hax
        · exact Or.inr ⟨h, hax⟩

theorem nodup_dedupWF [DecidableEq α] (l : List α) : (dedupWF l).Nodup := by
  induction l using dedupWF.induct with
  | case1 => simp [dedupWF]
  | case2 x xs ih =>
    rw [dedupWF]
    refine List.nodup_cons.mpr ⟨?_, ih⟩
    intro hx
    have := (mem_dedupWF _ _).mp hx
    simp at this

theorem dedupWF_of_nodup [DecidableEq α] (l : List α) (h : l.Nodup) :
    dedupWF l = l := by
  induction l with
  | nil => rw [dedupWF]
  | cons x xs ih =>
    rw [dedupWF]
    have hx : x ∉ xs := (List.nodup_cons.mp h).1
    have hfix : xs.filter (fun y => decide (y ≠ x)) = xs := by
      apply List.filter_eq_self.mpr
      intro y hy
      simp only [decide_eq_true_eq]
      rintro rfl; exact hx hy
    rw [hfix, ih (List.nodup_cons.mp h).2]

theorem dedupWF_append_subset [DecidableEq α] (xs : List α) :
    ∀ ys : List α, (∀ y ∈ ys, y ∈ xs) → dedupWF (xs ++ ys) = dedupWF xs := by
  induction xs using dedupWF.induct with
  | case1 =>
    intro ys h
    cases ys with
    | nil => rfl
    | cons a l => exact absurd (h a (by simp)) (by simp)
  | case2 x xs ih =>
    intro ys h
    rw [List.cons_append, dedupWF, dedupWF, List.filter_append]
    congr 1
    apply ih
    intro y hy
    simp only [List.mem_filter, decide_eq_true_eq] at hy ⊢
    rcases List.mem_cons.mp (h y hy.1) with heq | hmem
    · exact absurd heq hy.2
    · exact ⟨hmem, hy.2⟩

theorem dedupWF_flatMap_replicate [DecidableEq β] (g : α → β) (k : Nat) :
    ∀ l : List α, (l.map g).Nodup →
      dedupWF (l.flatMap (fun a => List.replicate (k + 1) (g a))) = l.map g := by
  intro l
  induction l with
  | nil => simp [dedupWF]
  | cons a l ih =>
    intro h
    have hnotmem : g a ∉ l.map g := (List.nodup_cons.mp h).1
    rw [List.flatMap_cons, List.map_cons, List.replicate_succ, List.cons_append,
      dedupWF]
    congr 1
    have hfilter :
        (List.replicate k (g a) ++
            l.flatMap (fun a => List.replicate (k + 1) (g a))).filter
            (fun y => decide (y ≠ g a)) =
          l.flatMap (fun a => List.replicate (k + 1) (g a)) := by
      rw [List.filter_append]
      have h1 : (List.replicate k (g a)).filter (fun y => decide (y ≠ g a)) = [] := by
        apply List.filter_eq_nil_iff.mpr
        intro y hy
        simp only [List.mem_replicate] at hy
        simp [hy.2]
      have h2 :
          (l.flatMap (fun a => List.replicate (k + 1) (g a))).filter
            (fun y => decide (y ≠ g a)) =
          l.flatMap (fun a => List.replicate (k + 1) (g a)) := by
        apply List.filter_eq_self.mpr
        intro y hy
        rcases List.mem_flatMap.mp hy with ⟨b, hb, hyb⟩
        have : y = g b := (List.mem_replicate.mp hyb).2
        subst this
        simp only [decide_eq_true_eq]
        rintro heq
        exact hnotmem (heq ▸ List.mem_map_of_mem g hb)
      rw [h1, h2, List.nil_append]
    rw [hfilter, ih (List.nodup_cons.mp h).2]

/-- Index of the first occurrence of an element in a list. -/
def firstIdx [DecidableEq α] (l : List α) (a : α) : Nat :=
  l.findIdx (fun x => decide (x = a))

theorem firstIdx_cons [DecidableEq α] (x : α) (l : List α) (a : α) :
    firstIdx (x :: l) a = if x = a then 0 else firstIdx l a + 1 := by
  unfold firstIdx
  rw [List.findIdx_cons]
  by_cases h : x = a <;> simp [h]

theorem firstIdx_filter_lt [DecidableEq α] (p : α → Bool) :
    ∀ (l : List α) (a b : α), a ∈ l.filter p → b ∈ l.filter p →
      firstIdx (l.filter p) a < firstIdx (l.filter p) b →
      firstIdx l a < firstIdx l b := by
  intro l
  induction l with
  | nil => intro a b ha; simp at ha
  | cons x l ih =>
    intro a b ha hb hlt
    by_cases hpx : p x
    · rw [List.filter_cons_of_pos hpx] at ha hb hlt
      by_cases hxa : x = a
      · subst hxa
        rw [firstIdx_cons, if_pos rfl]
        rw [firstIdx_cons, if_pos rfl] at hlt
        by_cases hxb : x = b
        · subst hxb
          rw [firstIdx_cons, if_pos rfl] at hlt
          exact absurd hlt (lt_irrefl 0)
        · rw [firstIdx_cons, if_neg hxb]
          omega
      · rw [firstIdx_cons, if_neg hxa] at hlt ⊢
        by_cases hxb : x = b
        · subst hxb
          rw [firstIdx_cons, if_pos rfl] at hlt
          omega
        · rw [firstIdx_cons, if_neg hxb] at hlt ⊢
          have ha' : a ∈ l.filter p := by
            rcases List.mem_cons.mp ha with heq | hmem
            · exact absurd heq.symm hxa
            · exact hmem
          have hb' : b ∈ l.filter p := by
            rcases List.mem_cons.mp hb with heq | hmem
            · exact absurd heq.symm hxb
            · exact hmem
          have := ih a b ha' hb' (by omega)
          omega
    · rw [List.filter_cons_of_neg hpx] at ha hb hlt
      have hpa : p a := (List.mem_filter.mp ha).2
      have hpb : p b := (List.mem_filter.mp hb).2
      have hxa : ¬ x = a := by rintro rfl; exact hpx hpa
      have hxb : ¬ x = b := by rintro rfl; exact hpx hpb
      rw [firstIdx_cons, if_neg hxa, firstIdx_cons, if_neg hxb]
      have := ih a b ha hb hlt
      omega

theorem pairwise_firstIdx_dedupWF [DecidableEq α] (l : List α) :
    (dedupWF l).Pairwise (fun a b => firstIdx l a < firstIdx l b) := by
  induction l using dedupWF.induct with
  | case1 => simp [dedupWF]
  | case2 x xs ih =>
    rw [dedupWF]
    refine List.Pairwise.cons ?_ ?_
    · intro b hb
      have hbmem : b ∈ xs.filter (fun y => decide (y ≠ x)) :=
        (mem_dedupWF _ _).mp hb
      have hbne : ¬ x = b := by
        have := (List.mem_filter.mp hbmem).2
        simp only [decide_eq_true_eq] at this
        exact fun h => this h.symm
      rw [firstIdx_cons, if_pos rfl, firstIdx_cons, if_neg hbne]
      omega
    · refine List.Pairwise.imp_of_mem ?_ ih
      intro a b ha hb hlt
      have ha' : a ∈ xs.filter (fun y => decide (y ≠ x)) :=
        (mem_dedupWF _ _).mp ha
      have hb' : b ∈ xs.filter (fun y => decide (y ≠ x)) :=
        (mem_dedupWF _ _).mp hb
      have hxa : ¬ x = a := by
        have := (List.mem_filter.mp ha').2
        simp only [decide_eq_true_eq] at this
        exact fun h => this h.symm
      have hxb : ¬ x = b := by
        have := (List.mem_filter.mp hb').2
        simp only [decide_eq_true_eq] at this
        exact fun h => this h.symm
      have := firstIdx_filter_lt _ xs a b ha' hb' hlt
      rw [firstIdx_cons, if_neg hxa, firstIdx_cons, if_neg hxb]
      omega

theorem dedupFirstAux_eq [DecidableEq α] :
    ∀ (l seen : List α),
      dedupFirstAux seen l = dedupWF (l.filter (fun y => decide (y ∉ seen))) := by
  intro l
  induction l with
  | nil => intro seen; rw [dedupFirstAux, List.filter_nil, dedupWF]
  | cons x xs ih =>
    intro seen
    by_cases hx : x ∈ seen
    · rw [dedupFirstAux, if_pos hx, List.filter_cons_of_neg (by simpa using hx)]
      exact ih seen
    · rw [dedupFirstAux, if_neg hx, List.filter_cons_of_pos (by simpa using hx),
        dedupWF]
      congr 1
      rw [ih (x :: seen), List.filter_filter]
      congr 1
      apply List.filter_congr
      intro y _
      simp only [List.mem_cons, not_or, decide_not]
      by_cases h1 : y = x <;> by_cases h2 : y ∈ seen <;> simp [h1, h2]

theorem dedupFirst_eq_dedupWF [DecidableEq α] (l : List α) :
    dedupFirst l = dedupWF l := by
  rw [dedupFirst, dedupFirstAux_eq]
  congr 1
  apply List.filter_eq_self.mpr
  intro y _
  simp

theorem mem_dedupFirst [DecidableEq α] (a : α) (l : List α) :
    a ∈ dedupFirst l ↔ a ∈ l := by
  rw [dedupFirst_eq_dedupWF]; exact mem_dedupWF a l

theorem nodup_dedupFirst [DecidableEq α] (l : List α) : (dedupFirst l).Nodup := by
  rw [dedupFirst_eq_dedupWF]; exact nodup_dedupWF l

theorem dedupFirst_of_nodup [DecidableEq α] (l : List α) (h : l.Nodup) :
    dedupFirst l = l := by
  rw [dedupFirst_eq_dedupWF]; exact dedupWF_of_nodup l h

theorem dedupFirst_append_subset [DecidableEq α] (xs ys : List α)
    (h : ∀ y ∈ ys, y ∈ xs) : dedupFirst (xs ++ ys) = dedupFirst xs := by
  rw [dedupFirst_eq_dedupWF, dedupFirst_eq_dedupWF]
  exact dedupWF_append_subset xs ys h

theorem dedupFirst_flatMap_replicate [DecidableEq β] (g : α → β) (k : Nat)
    (l : List α) (h : (l.map g).Nodup) :
    dedupFirst (l.flatMap (fun a => List.replicate (k + 1) (g a))) = l.map g := by
  rw [dedupFirst_eq_dedupWF]; exact dedupWF_flatMap_replicate g k l h

theorem pairwise_firstIdx_dedupFirst [DecidableEq α] (l : List α) :
    (dedupFirst l).Pairwise (fun a b => firstIdx l a < firstIdx l b) := by
  rw [dedupFirst_eq_dedupWF]; exact pairwise_firstIdx_dedupWF l


/-- Occurrence count pinned to the BEq instance induced by decidable
equality, the instance used by the permutation-count criterion. -/
def cnt [inst : DecidableEq α] (a : α) (l : List α) : Nat :=
  @List.count α (@instBEqOfDecidableEq α inst) a l

theorem perm_iff_cnt [DecidableEq α] {l1 l2 : List α} :
    l1.Perm l2 ↔ ∀ a, cnt a l1 = cnt a l2 :=
  List.perm_iff_count

theorem cnt_flatMap [DecidableEq β] (l : List α) (g : α → List β) (b : β) :
    cnt b (l.flatMap g) = (l.map (fun x => cnt b (g x))).sum := by
  unfold cnt
  rw [List.count_flatMap]
  rfl

theorem cnt_filter_ite [DecidableEq α] (l : List α) (p : α → Bool) (a : α) :
    cnt a (l.filter p) = if p a then cnt a l else 0 := by
  unfold cnt
  by_cases hpa : p a
  · rw [if_pos hpa]
    exact List.count_filter hpa
  · rw [if_neg hpa, List.count_eq_zero]
    intro hmem
    exact hpa (List.of_mem_filter hmem)

theorem cnt_eq_zero [DecidableEq α] {a : α} {l : List α} (h : a ∉ l) :
    cnt a l = 0 := by
  unfold cnt
  exact List.count_eq_zero.mpr h

theorem sum_map_ite_single [DecidableEq α] (keys : List α) (c : α) (m : Nat)
    (h : keys.Nodup) :
    (keys.map (fun t => if c = t then m else 0)).sum = if c ∈ keys then m else 0 := by
  induction keys with
  | nil => simp
  | cons k ks ih =>
    rw [List.map_cons, List.sum_cons, ih (List.nodup_cons.mp h).2]
    by_cases hck : c = k
    · subst hck
      have hnot : c ∉ ks := (List.nodup_cons.mp h).1
      simp [hnot]
    · simp [hck, List.mem_cons]

/-- The section 8 example frame: cyl = [6,4,6], gear = [4,4,3],
hp = [110,93,175]. -/
def exFrame : Frame :=
  { schema := [("cyl", ScalarType.integer), ("gear", ScalarType.integer),
               ("hp", ScalarType.integer)]
    rows := [[Value.int 6, Value.int 4, Value.int 110],
             [Value.int 4, Value.int 4, Value.int 93],
             [Value.int 6, Value.int 3, Value.int 175]] }

/-- The key tuples of the section 8 example, in first-occurrence order. -/
def exKeys : List KeyTuple :=
  [[Value.int 6, Value.int 4], [Value.int 4, Value.int 4],
   [Value.int 6, Value.int 3]]

/-- The partition of the section 8 example frame by a key tuple over
(cyl, gear). -/
def exParts (t : KeyTuple) : Frame :=
  { schema := exFrame.schema
    rows := exFrame.rows.filter (fun r => decide (rowKey [0, 1] r = t)) }

/-- Claim C1: for every Frame and key-column set, the multiset union of
the PartitionFilter outputs over the key tuples returned by
GroupKeyExtractor is a permutation of the rows of the Frame, and no row
belongs to two distinct partitions. -/
theorem partition_conservation (f : Frame) (K : List String)
    (keys : List KeyTuple) (parts : KeyTuple → Frame)
    (h1 : GroupKeyExtractor.extract f K = .ok keys)
    (h2 : ∀ t ∈ keys, PartitionFilter.filter f K t = .ok (parts t)) :
    (keys.flatMap (fun t => (parts t).rows)).Perm f.rows ∧
      ∀ t1 ∈ keys, ∀ t2 ∈ keys, t1 ≠ t2 →
        ∀ r ∈ (parts t1).rows, r ∉ (parts t2).rows := by
  unfold GroupKeyExtractor.extract at h1
  cases hk : keyIdxs f K with
  | none => rw [hk] at h1; cases h1
  | some is =>
    rw [hk] at h1
    simp only [Except.ok.injEq] at h1
    subst h1
    have hnodup : (dedupFirst (f.rows.map (rowKey is))).Nodup := nodup_dedupFirst _
    have hparts : ∀ t ∈ dedupFirst (f.rows.map (rowKey is)), (parts t).rows =
        f.rows.filter (fun r => decide (rowKey is r = t)) := by
      intro t ht
      have h3 := h2 t ht
      unfold PartitionFilter.filter at h3
      rw [hk] at h3
      simp only [Except.ok.injEq] at h3
      rw [← h3]
    constructor
    · rw [perm_iff_cnt]
      intro a
      rw [cnt_flatMap]
      have hmapeq :
          (dedupFirst (f.rows.map (rowKey is))).map
              (fun t => cnt a (parts t).rows) =
            (dedupFirst (f.rows.map (rowKey is))).map
              (fun t => if rowKey is a = t then cnt a f.rows else 0) := by
        apply List.map_congr_left
        intro t ht
        rw [hparts t ht, cnt_filter_ite]
        by_cases hr : rowKey is a = t <;> simp [hr]
      rw [hmapeq, sum_map_ite_single _ _ _ hnodup]
      by_cases ha : a ∈ f.rows
      · rw [if_pos ((mem_dedupFirst _ _).mpr (List.mem_map_of_mem _ ha))]
      · rw [cnt_eq_zero ha]
        simp
    · intro t1 ht1 t2 ht2 hne r hr1 hr2
      rw [hparts t1 ht1] at hr1
      rw [hparts t2 ht2] at hr2
      have e1 : rowKey is r = t1 := by
        simpa using (List.mem_filter.mp hr1).2
      have e2 : rowKey is r = t2 := by
        simpa using (List.mem_filter.mp hr2).2
      exact hne (e1.symm.trans e2)

/-- Witness for claim C1 at the section 8 example frame with key columns
cyl and gear. -/
theorem partition_conservation_witness :
    GroupKeyExtractor.extract exFrame ["cyl", "gear"] = .ok exKeys ∧
      ((exKeys.flatMap (fun t => (exParts t).rows)).Perm exFrame.rows ∧
        ∀ t1 ∈ exKeys, ∀ t2 ∈ exKeys, t1 ≠ t2 →
          ∀ r ∈ (exParts t1).rows, r ∉ (exParts t2).rows) :=
  ⟨by decide,
   partition_conservation exFrame ["cyl", "gear"] exKeys exParts
     (by decide) (by decide)⟩

/-- A frame with null key values, used to exhibit null-equality in
partition filtering. -/
def nullFrame : Frame :=
  { schema := [("cyl", ScalarType.integer), ("hp", ScalarType.integer)]
    rows := [[Value.null, Value.int 1], [Value.int 4, Value.int 2],
             [Value.null, Value.int 3]] }

/-- The partition of the null-valued frame selected by the key tuple
holding null. -/
def nullPart : Frame :=
  { schema := nullFrame.schema
    rows := [[Value.null, Value.int 1], [Value.null, Value.int 3]] }

/-- Claim C2: PartitionFilter selects exactly the rows whose key-column
values equal the corresponding key-tuple elements, under a value equality
in which null equals null, so rows with null key values are selected by
the partition whose key tuple holds null in that position. -/
theorem partitionfilter_null_equality (f : Frame) (K : List String)
    (t : KeyTuple) (is : List Nat) (g : Frame)
    (hk : keyIdxs f K = some is)
    (h : PartitionFilter.filter f K t = .ok g) :
    g.schema = f.schema ∧ ∀ r, r ∈ g.rows ↔ r ∈ f.rows ∧ rowKey is r = t := by
  unfold PartitionFilter.filter at h
  rw [hk] at h
  simp only [Except.ok.injEq] at h
  subst h
  refine ⟨rfl, fun r => ?_⟩
  simp [List.mem_filter]

/-- Witness for claim C2: in the null-valued frame, the key tuple [null]
over column cyl selects exactly the two rows whose cyl value is null. -/
theorem partitionfilter_null_equality_witness :
    nullPart.schema = nullFrame.schema ∧
      ∀ r, r ∈ nullPart.rows ↔ r ∈ nullFrame.rows ∧ rowKey [0] r = [Value.null] :=
  partitionfilter_null_equality nullFrame ["cyl"] [Value.null] [0] nullPart
    (by decide) (by decide)

/-- Claim C3 (intended behavior): the spec-modelled GroupKeyExtractor
returns the distinct key tuples, deduplicated, ordered by the position of
their first occurrence among the rows of the frame; as a function it is
deterministic for a fixed input Frame. -/
theorem groupkey_first_occurrence (f : Frame) (K : List String)
    (keys : List KeyTuple) (is : List Nat)
    (hk : keyIdxs f K = some is)
    (h : GroupKeyExtractor.extract f K = .ok keys) :
    keys.Nodup ∧ (∀ t, t ∈ keys ↔ t ∈ f.rows.map (rowKey is)) ∧
      keys.Pairwise (fun a b =>
        firstIdx (f.rows.map (rowKey is)) a <
          firstIdx (f.rows.map (rowKey is)) b) := by
  unfold GroupKeyExtractor.extract at h
  rw [hk] at h
  simp only [Except.ok.injEq] at h
  subst h
  exact ⟨nodup_dedupFirst _, fun t => mem_dedupFirst t _,
    pairwise_firstIdx_dedupFirst _⟩

/-- Witness for claim C3 at the section 8 example frame: grouping by
(cyl, gear) yields (6,4), (4,4), (6,3) in first-occurrence order. -/
theorem groupkey_first_occurrence_witness :
    exKeys.Nodup ∧ (∀ t, t ∈ exKeys ↔ t ∈ exFrame.rows.map (rowKey [0, 1])) ∧
      exKeys.Pairwise (fun a b =>
        firstIdx (exFrame.rows.map (rowKey [0, 1])) a <
          firstIdx (exFrame.rows.map (rowKey [0, 1])) b) :=
  groupkey_first_occurrence exFrame ["cyl", "gear"] exKeys [0, 1]
    (by decide) (by decide)

/-- Claim C5: concatenating two schema-compatible Frames yields the rows
of the first, in order, immediately followed by the rows of the second,
with the shared schema and the row values untouched. -/
theorem concat_order_preservation (A B : Frame) (h : A.schema = B.schema) :
    Concatenator.concat [A, B] =
      .ok { schema := A.schema, rows := A.rows ++ B.rows } := by
  unfold Concatenator.concat
  simp [h]

/-- Witness for claim C5 on two concrete schema-compatible frames. -/
theorem concat_order_preservation_witness :
    Concatenator.concat [nullFrame, nullPart] =
      .ok { schema := nullFrame.schema
            rows := nullFrame.rows ++ nullPart.rows } :=
  concat_order_preservation nullFrame nullPart (by decide)

/-- Claim C6: concatenation of a non-empty sequence of Frames fails with
SchemaMismatch exactly when the Frames are not all schema-compatible,
schemas compared as ordered (name, type) sequences. -/
theorem concat_schema_mismatch (f : Frame) (rest : List Frame) :
    Concatenator.concat (f :: rest) = .error DFError.schemaMismatch ↔
      ¬ ∀ g ∈ rest, g.schema = f.schema := by
  rw [Concatenator.concat]
  have hcond : (rest.all (fun g => decide (g.schema = f.schema))) = true ↔
      ∀ g ∈ rest, g.schema = f.schema := by
    simp [List.all_eq_true]
  by_cases hall : ∀ g ∈ rest, g.schema = f.schema
  · rw [if_pos (hcond.mpr hall)]
    simp only [reduceCtorEq, false_iff, not_not]
    exact hall
  · rw [if_neg (fun hc => hall (hcond.mp hc))]
    simp [hall]

/-- Claim C8: the operations of the engine are pure, and the grouping
pipeline, modelled as explicit state passing, rebinds only the key-tuple
and output-frame bindings: the source frame keeps its schema and rows. -/
theorem pipeline_immutability (e : ScratchEnv) :
    (runScratchPipeline e).mtcars.schema = e.mtcars.schema ∧
      (runScratchPipeline e).mtcars.rows = e.mtcars.rows ∧
      (runScratchPipeline e).mtcars = e.mtcars :=
  ⟨rfl, rfl, rfl⟩

/-- Claim C9: mapping doit over the three keyword dictionaries produces
three results, all None; doit returns None for every argument
dictionary, and a keyword not named a or b is absorbed into the residual
dictionary without affecting the return value. -/
theorem doit_results_none (k : String) (v : PyVal) (d : List (String × PyVal))
    (hka : k ≠ "a") (hkb : k ≠ "b") :
    results.length = dictList.length ∧ results = [none, none, none] ∧
      (∀ d2, (doit d2).ret = none) ∧
      (doit ((k, v) :: d)).ret = (doit d).ret ∧
      (k, v) ∈ (doit ((k, v) :: d)).residual := by
  refine ⟨rfl, rfl, fun d2 => rfl, rfl, ?_⟩
  simp [doit, hka, hkb]

/-- Witness for claim C9: the keyword c of the first dictionary is
absorbed into residual and the mapped results are three Nones. -/
theorem doit_results_none_witness :
    results.length = dictList.length ∧ results = [none, none, none] ∧
      (∀ d2, (doit d2).ret = none) ∧
      (doit (("c", PyVal.int (-1)) :: [("b", PyVal.str "hmm")])).ret =
        (doit [("b", PyVal.str "hmm")]).ret ∧
      ("c", PyVal.int (-1)) ∈
        (doit (("c", PyVal.int (-1)) :: [("b", PyVal.str "hmm")])).residual :=
  doit_results_none "c" (PyVal.int (-1)) [("b", PyVal.str "hmm")]
    (by decide) (by decide)

/-- Claim C10: the when/then/otherwise expression over the test column
["a", "b", "c"] maps "a" to "astring" and keeps the other values, in the
original row order. -/
theorem when_then_otherwise_result :
    whenThenOtherwise scratchTestFrame =
      [Value.str "astring", Value.str "b", Value.str "c"] := by decide

theorem enumPairs_map_snd (rs : List (String × ScalarType)) :
    ∀ k, (enumPairs k rs).map (fun e => e.2) = rs := by
  induction rs with
  | nil => intro k; rfl
  | cons p rest ih =>
    intro k
    simp [enumPairs, ih (k + 1)]

theorem valueEntries_names (rs : List (String × ScalarType)) (S : List String) :
    ∀ k, (Unpivoter.valueEntries k rs S).map (fun e => e.2.1) =
      (rs.map Prod.fst).filter (fun n => decide (n ∈ S)) := by
  induction rs with
  | nil => intro k; rfl
  | cons p rest ih =>
    intro k
    unfold Unpivoter.valueEntries at ih ⊢
    simp only [enumPairs, List.map_cons, List.filter_cons]
    by_cases hp : p.1 ∈ S
    · simp [hp, ih (k + 1)]
    · simp [hp, ih (k + 1)]

theorem countP_append_mem (names : List String) (v : String) (vs : List String)
    (hv : v ∉ vs) :
    names.countP (fun n => decide (n ∈ v :: vs)) =
      names.countP (fun n => decide (n = v)) +
        names.countP (fun n => decide (n ∈ vs)) := by
  induction names with
  | nil => rfl
  | cons n names ih =>
    simp only [List.countP_cons, ih]
    by_cases h1 : n = v
    · subst h1
      simp [hv]
      omega
    · by_cases h2 : n ∈ vs
      · simp [h1, h2]
        omega
      · simp [h1, h2]

theorem countP_eq_one_of_nodup (names : List String) (v : String)
    (h : names.Nodup) (hm : v ∈ names) :
    names.countP (fun n => decide (n = v)) = 1 := by
  induction names with
  | nil => cases hm
  | cons n names ih =>
    simp only [List.countP_cons]
    rcases List.mem_cons.mp hm with rfl | hmem
    · have hnot : v ∉ names := (List.nodup_cons.mp h).1
      have hzero : names.countP (fun m => decide (m = v)) = 0 := by
        apply List.countP_eq_zero.mpr
        intro a ha
        simp only [decide_eq_true_eq]
        rintro rfl
        exact hnot ha
      simp [hzero]
    · have hne : ¬ n = v := by
        rintro rfl
        exact (List.nodup_cons.mp h).1 hmem
      rw [ih (List.nodup_cons.mp h).2 hmem]
      simp [hne]

theorem countP_mem_eq_length (names : List String) (h : names.Nodup) :
    ∀ vcols : List String, vcols.Nodup → (∀ v ∈ vcols, v ∈ names) →
      names.countP (fun n => decide (n ∈ vcols)) = vcols.length := by
  intro vcols
  induction vcols with
  | nil =>
    intro _ _
    apply List.countP_eq_zero.mpr
    intro a _
    simp
  | cons v vs ih =>
    intro hnd hsub
    rw [countP_append_mem names v vs (List.nodup_cons.mp hnd).1,
      countP_eq_one_of_nodup names v h (hsub v (List.mem_cons_self v vs)),
      ih (List.nodup_cons.mp hnd).2 (fun w hw => hsub w (List.mem_cons_of_mem v hw))]
    simp [List.length_cons]
    omega

theorem sum_replicate_nat (n m : Nat) : (List.replicate n m).sum = n * m := by
  induction n with
  | zero => simp
  | succ n ih =>
    rw [List.replicate_succ, List.sum_cons, ih, Nat.succ_mul]
    omega

theorem getD_append_length (xs l : List Value) (d : Value) :
    (xs ++ l).getD xs.length d = l.getD 0 d := by
  induction xs with
  | nil => rfl
  | cons x xs ih => simpa using ih

theorem optMapM_some_forall (g : α → Option β) :
    ∀ (l : List α) (bs : List β), optMapM g l = some bs →
      ∀ a ∈ l, ∃ b, g a = some b := by
  intro l
  induction l with
  | nil => intro bs _ a ha; cases ha
  | cons x l ih =>
    intro bs h a ha
    unfold optMapM at h
    cases hx : g x with
    | none => rw [hx] at h; cases h
    | some b =>
      rw [hx] at h
      cases hl : optMapM g l with
      | none => rw [hl] at h; cases h
      | some bs2 =>
        rcases List.mem_cons.mp ha with heq | hmem
        · exact heq ▸ ⟨b, hx⟩
        · exact ih bs2 hl a hmem

theorem colIdxAux_some_mem (n : String) :
    ∀ (rs : List (String × ScalarType)) (i : Nat), colIdxAux n rs = some i →
      n ∈ rs.map Prod.fst := by
  intro rs
  induction rs with
  | nil => intro i h; cases h
  | cons p rest ih =>
    intro i h
    unfold colIdxAux at h
    by_cases hp : p.1 = n
    · simp [hp]
    · rw [if_neg hp] at h
      cases hr : colIdxAux n rest with
      | none => rw [hr] at h; cases h
      | some j => exact List.mem_cons_of_mem _ (ih j hr)

theorem length_rowKey (is : List Nat) (r : Row) :
    (rowKey is r).length = is.length := by
  simp [rowKey]

theorem length_flatMap_uniform (l : List α) (g : α → List β) (m : Nat)
    (h : ∀ a, (g a).length = m) : (l.flatMap g).length = l.length * m := by
  induction l with
  | nil => simp
  | cons x l ih =>
    rw [List.flatMap_cons, List.length_append, ih, h x, List.length_cons,
      Nat.succ_mul]
    omega

/-- The long form of the section 8 example frame, with index column cyl
and value columns gear and hp. -/
def exLong : Frame :=
  { schema := [("cyl", ScalarType.integer), ("variable", ScalarType.string),
               ("value", ScalarType.integer)]
    rows := [[Value.int 6, Value.str "gear", Value.int 4],
             [Value.int 6, Value.str "hp", Value.int 110],
             [Value.int 4, Value.str "gear", Value.int 4],
             [Value.int 4, Value.str "hp", Value.int 93],
             [Value.int 6, Value.str "gear", Value.int 3],
             [Value.int 6, Value.str "hp", Value.int 175]] }

theorem length_enumPairs (rs : List (String × ScalarType)) :
    ∀ k, (enumPairs k rs).length = rs.length := by
  induction rs with
  | nil => intro k; rfl
  | cons p rest ih => intro k; simp [enumPairs, ih (k + 1)]

theorem enumPairs_map_name (rs : List (String × ScalarType)) (k : Nat) :
    (enumPairs k rs).map (fun e => e.2.1) = rs.map Prod.fst := by
  have h := enumPairs_map_snd rs k
  calc (enumPairs k rs).map (fun e => e.2.1)
      = ((enumPairs k rs).map (fun e => e.2)).map Prod.fst := by
        rw [List.map_map]; rfl
    _ = rs.map Prod.fst := by rw [h]

theorem mem_enumPairs_snd (rs : List (String × ScalarType)) (k : Nat)
    (e : Nat × String × ScalarType) (h : e ∈ enumPairs k rs) : e.2 ∈ rs := by
  have : e.2 ∈ (enumPairs k rs).map (fun e => e.2) := List.mem_map_of_mem _ h
  rwa [enumPairs_map_snd] at this

theorem valueEntries_cons_skip (n0 : String) (t0 : ScalarType)
    (rs : List (String × ScalarType)) (S : List String) (k : Nat)
    (h : n0 ∉ S) :
    Unpivoter.valueEntries k ((n0, t0) :: rs) S =
      Unpivoter.valueEntries (k + 1) rs S := by
  unfold Unpivoter.valueEntries
  simp [enumPairs, h]

theorem valueEntries_all_of_subset (rs : List (String × ScalarType))
    (S : List String) (k : Nat) (h : ∀ p ∈ rs, p.1 ∈ S) :
    Unpivoter.valueEntries k rs S = enumPairs k rs := by
  unfold Unpivoter.valueEntries
  apply List.filter_eq_self.mpr
  intro e he
  simp only [decide_eq_true_eq]
  exact h e.2 (mem_enumPairs_snd rs k e he)

theorem filter_flatMap (l : List α) (g : α → List β) (p : β → Bool) :
    (l.flatMap g).filter p = l.flatMap (fun a => (g a).filter p) := by
  induction l with
  | nil => rfl
  | cons x l ih => simp [List.flatMap_cons, List.filter_append, ih]

theorem flatMap_single_bucket [DecidableEq κ] (l : List α) (keyf : α → κ)
    (F G : α → List β) (c : κ) :
    ∀ (r : α), (l.map keyf).Nodup → r ∈ l → keyf r = c →
      (∀ a, F a = if keyf a = c then G a else []) →
      l.flatMap F = G r := by
  induction l with
  | nil => intro r _ hr; cases hr
  | cons x l ih =>
    intro r hnd hr hc hF
    rw [List.flatMap_cons]
    rcases List.mem_cons.mp hr with rfl | hmem
    · rw [hF r, if_pos hc]
      have hrest : l.flatMap F = [] := by
        apply List.flatMap_eq_nil_iff.mpr
        intro a ha
        rw [hF a, if_neg]
        intro hac
        have : keyf a ∈ l.map keyf := List.mem_map_of_mem keyf ha
        rw [hac, ← hc] at this
        exact (List.nodup_cons.mp hnd).1 this
      rw [hrest, List.append_nil]
    · have hxc : ¬ keyf x = c := by
        intro hxc
        have : keyf r ∈ l.map keyf := List.mem_map_of_mem keyf hmem
        rw [hc, ← hxc] at this
        exact (List.nodup_cons.mp hnd).1 this
      rw [hF x, if_neg hxc, List.nil_append]
      exact ih r (List.nodup_cons.mp hnd).2 hmem hc hF

theorem enumPairs_filter_name (rs : List (String × ScalarType))
    (hnd : (rs.map Prod.fst).Nodup) :
    ∀ (k : Nat) (e0 : Nat × String × ScalarType), e0 ∈ enumPairs k rs →
      (enumPairs k rs).filter (fun e => decide (e.2.1 = e0.2.1)) = [e0] := by
  induction rs with
  | nil => intro k e0 h; cases h
  | cons p rest ih =>
    intro k e0 h0
    rw [enumPairs] at h0 ⊢
    rcases List.mem_cons.mp h0 with rfl | hmem
    · rw [List.filter_cons_of_pos (by simp)]
      have : (enumPairs (k + 1) rest).filter
          (fun e => decide (e.2.1 = (k, p.1, p.2).2.1)) = [] := by
        apply List.filter_eq_nil_iff.mpr
        intro e he
        simp only [decide_eq_true_eq]
        intro heq
        have hm : e.2.1 ∈ rest.map Prod.fst := by
          have h2 := mem_enumPairs_snd rest (k + 1) e he
          exact List.mem_map_of_mem Prod.fst h2
        rw [heq] at hm
        exact (List.nodup_cons.mp hnd).1 hm
      rw [this]
    · have hne : ¬ p.1 = e0.2.1 := by
        intro heq
        have hm : e0.2.1 ∈ rest.map Prod.fst := by
          have := mem_enumPairs_snd rest (k + 1) e0 hmem
          exact List.mem_map_of_mem Prod.fst this
        rw [← heq] at hm
        exact (List.nodup_cons.mp hnd).1 hm
      rw [List.filter_cons_of_neg (by simpa using hne)]
      exact ih (List.nodup_cons.mp hnd).2 (k + 1) e0 hmem

theorem drop_eq_getD_cons :
    ∀ (r : Row) (k : Nat), k < r.length →
      r.drop k = r.getD k Value.null :: r.drop (k + 1) := by
  intro r
  induction r with
  | nil => intro k h; cases h
  | cons x rt ih =>
    intro k h
    cases k with
    | zero => rfl
    | succ k =>
      simp only [List.drop_succ_cons, List.getD_cons_succ]
      exact ih k (by simpa using h)

theorem enumPairs_getD_drop :
    ∀ (rs : List (String × ScalarType)) (k : Nat) (r : Row),
      r.length = k + rs.length →
      (enumPairs k rs).map (fun e => r.getD e.1 Value.null) = r.drop k := by
  intro rs
  induction rs with
  | nil =>
    intro k r h
    rw [List.length_nil] at h
    rw [List.drop_eq_nil_of_le (by omega)]
    rfl
  | cons p rest ih =>
    intro k r h
    rw [enumPairs, List.map_cons, ih (k + 1) r (by simp at h ⊢; omega)]
    exact (drop_eq_getD_cons r k (by simp at h ⊢; omega)).symm

theorem colIdxAux_mem_some (n : String) :
    ∀ rs : List (String × ScalarType), n ∈ rs.map Prod.fst →
      ∃ i, colIdxAux n rs = some i := by
  intro rs
  induction rs with
  | nil => intro h; cases h
  | cons p rest ih =>
    intro h
    by_cases hp : p.1 = n
    · exact ⟨0, by simp [colIdxAux, hp]⟩
    · have hmem : n ∈ rest.map Prod.fst := by
        rw [List.map_cons] at h
        rcases List.mem_cons.mp h with heq | hm
        · exact absurd heq.symm hp
        · exact hm
      rcases ih hmem with ⟨j, hj⟩
      exact ⟨j + 1, by simp [colIdxAux, hp, hj]⟩

theorem optMapM_some_of_forall (g : α → Option β) :
    ∀ l : List α, (∀ a ∈ l, ∃ b, g a = some b) →
      ∃ bs, optMapM g l = some bs := by
  intro l
  induction l with
  | nil => intro _; exact ⟨[], rfl⟩
  | cons x l ih =>
    intro h
    rcases h x (List.mem_cons_self x l) with ⟨b, hb⟩
    rcases ih (fun a ha => h a (List.mem_cons_of_mem x ha)) with ⟨bs, hbs⟩
    exact ⟨b :: bs, by simp [optMapM, hb, hbs]⟩

theorem roundtrip_unpivot_eq
    (f : Frame) (idxn : String) (idxt : ScalarType)
    (rest : List (String × ScalarType)) (t0 : ScalarType)
    (hschema : f.schema = (idxn, idxt) :: rest)
    (hrestne : rest ≠ [])
    (htypes : ∀ p ∈ rest, p.2 = t0)
    (hidxnotin : idxn ∉ rest.map Prod.fst) :
    Unpivoter.unpivot f [idxn] (rest.map Prod.fst) =
      .ok { schema := [(idxn, idxt), ("variable", ScalarType.string),
                       ("value", t0)]
            rows := f.rows.flatMap (fun r =>
              (enumPairs 1 rest).map (fun e =>
                [r.getD 0 Value.null, Value.str e.2.1,
                 r.getD e.1 Value.null])) } := by
  have hci : colIdx f idxn = some 0 := by
    unfold colIdx
    rw [hschema]
    simp [colIdxAux]
  have hki : keyIdxs f [idxn] = some [0] := by
    simp [keyIdxs, optMapM, hci]
  have hkv : ∃ js, keyIdxs f (rest.map Prod.fst) = some js := by
    apply optMapM_some_of_forall
    intro n hn
    have hmem : n ∈ f.schema.map Prod.fst := by
      rw [hschema, List.map_cons]
      exact List.mem_cons_of_mem _ hn
    exact colIdxAux_mem_some n f.schema hmem
  obtain ⟨js, hjs⟩ := hkv
  have hE : Unpivoter.valueEntries 0 f.schema (rest.map Prod.fst) =
      enumPairs 1 rest := by
    rw [hschema, valueEntries_cons_skip idxn idxt rest _ 0 hidxnotin]
    exact valueEntries_all_of_subset rest _ 1
      (fun p hp => List.mem_map_of_mem Prod.fst hp)
  have hvt : (((enumPairs 1 rest).head?.map (fun e => e.2.2)).getD
      ScalarType.string) = t0 := by
    obtain ⟨p0, rest', heq⟩ := List.exists_cons_of_ne_nil hrestne
    rw [heq]
    simp [enumPairs]
    exact htypes p0 (by rw [heq]; exact List.mem_cons_self p0 rest')
  have hall : ((enumPairs 1 rest).all (fun e => decide (e.2.2 =
      (((enumPairs 1 rest).head?.map (fun e => e.2.2)).getD
        ScalarType.string)))) = true := by
    rw [List.all_eq_true]
    intro e he
    simp only [hvt, decide_eq_true_eq]
    exact htypes e.2 (mem_enumPairs_snd rest 1 e he)
  unfold Unpivoter.unpivot
  rw [hki, hjs]
  simp only [hE]
  rw [if_neg (by simp [hidxnotin])]
  rw [if_pos hall]
  congr 1
  refine congrArg₂ Frame.mk ?_ ?_
  · rw [hschema]
    simp [hvt]
  · refine congrArg f.rows.flatMap (funext fun r => ?_)
    apply List.map_congr_left
    intro e _
    simp [rowKey]

theorem roundtrip_pivot_eq
    (f : Frame) (idxn : String) (idxt : ScalarType)
    (rest : List (String × ScalarType)) (t0 : ScalarType)
    (hschema : f.schema = (idxn, idxt) :: rest)
    (hrestne : rest ≠ [])
    (htypes : ∀ p ∈ rest, p.2 = t0)
    (hrestnd : (rest.map Prod.fst).Nodup)
    (hlen : ∀ r ∈ f.rows, r.length = f.schema.length)
    (hrowsne : f.rows ≠ [])
    (hidx : (f.rows.map (fun r => r.getD 0 Value.null)).Nodup)
    (hnv1 : idxn ≠ "variable")
    (hnv2 : idxn ≠ "value") :
    Pivoter.pivot
      { schema := [(idxn, idxt), ("variable", ScalarType.string), ("value", t0)]
        rows := f.rows.flatMap (fun r =>
          (enumPairs 1 rest).map (fun e =>
            [r.getD 0 Value.null, Value.str e.2.1, r.getD e.1 Value.null])) }
      idxn "variable" "value" ConflictPolicy.first = .ok f := by
  set LR := f.rows.flatMap (fun r =>
    (enumPairs 1 rest).map (fun e =>
      [r.getD 0 Value.null, Value.str e.2.1, r.getD e.1 Value.null])) with hLR
  have hc0 : colIdx { schema := [(idxn, idxt), ("variable", ScalarType.string),
      ("value", t0)], rows := LR } idxn = some 0 := by
    simp [colIdx, colIdxAux]
  have hc1 : colIdx { schema := [(idxn, idxt), ("variable", ScalarType.string),
      ("value", t0)], rows := LR } "variable" = some 1 := by
    simp [colIdx, colIdxAux, hnv1]
  have hc2 : colIdx { schema := [(idxn, idxt), ("variable", ScalarType.string),
      ("value", t0)], rows := LR } "value" = some 2 := by
    simp [colIdx, colIdxAux, hnv2]
  have hmapvar : LR.map (fun lr => lr.getD 1 Value.null) =
      f.rows.flatMap (fun _ => (rest.map Prod.fst).map Value.str) := by
    rw [hLR, List.map_flatMap]
    refine congrArg f.rows.flatMap (funext fun r => ?_)
    have hcomp : (enumPairs 1 rest).map ((fun lr => lr.getD 1 Value.null) ∘
        (fun e => [r.getD 0 Value.null, Value.str e.2.1,
          r.getD e.1 Value.null])) =
        ((enumPairs 1 rest).map (fun e => e.2.1)).map Value.str := by
      rw [List.map_map]
      rfl
    rw [List.map_map, hcomp, enumPairs_map_name]
  have hvars : dedupFirst (LR.map (fun lr => lr.getD 1 Value.null)) =
      (rest.map Prod.fst).map Value.str := by
    rw [hmapvar]
    obtain ⟨r0, rtl, heq⟩ := List.exists_cons_of_ne_nil hrowsne
    rw [heq, List.flatMap_cons]
    rw [dedupFirst_append_subset]
    · exact dedupFirst_of_nodup _
        (hrestnd.map (fun a b hab => by injection hab))
    · intro y hy
      rcases List.mem_flatMap.mp hy with ⟨a, _, hya⟩
      exact hya
  have hmapidx : LR.map (fun lr => lr.getD 0 Value.null) =
      f.rows.flatMap (fun r =>
        List.replicate rest.length (r.getD 0 Value.null)) := by
    rw [hLR, List.map_flatMap]
    refine congrArg f.rows.flatMap (funext fun r => ?_)
    rw [List.map_map]
    have hcomp : (enumPairs 1 rest).map ((fun lr => lr.getD 0 Value.null) ∘
        (fun e => [r.getD 0 Value.null, Value.str e.2.1,
          r.getD e.1 Value.null])) =
        (enumPairs 1 rest).map (fun _ => r.getD 0 Value.null) := rfl
    rw [hcomp, List.map_const', length_enumPairs]
  have hidxs : dedupFirst (LR.map (fun lr => lr.getD 0 Value.null)) =
      f.rows.map (fun r => r.getD 0 Value.null) := by
    rw [hmapidx]
    obtain ⟨p0, rest', heq⟩ := List.exists_cons_of_ne_nil hrestne
    rw [heq, List.length_cons]
    exact dedupFirst_flatMap_replicate (fun r => r.getD 0 Value.null)
      rest'.length f.rows hidx
  have hcell : ∀ r ∈ f.rows, ∀ e0 ∈ enumPairs 1 rest,
      (((LR.filter (fun lr => decide (lr.getD 0 Value.null = r.getD 0 Value.null ∧
          lr.getD 1 Value.null = Value.str e0.2.1))).head?).map
        (fun lr => lr.getD 2 Value.null)).getD Value.null =
      r.getD e0.1 Value.null := by
    intro r hr e0 he0
    have hbucket : f.rows.flatMap (fun r' =>
        ((enumPairs 1 rest).map (fun e =>
          [r'.getD 0 Value.null, Value.str e.2.1,
           r'.getD e.1 Value.null])).filter
          (fun lr => decide (lr.getD 0 Value.null = r.getD 0 Value.null ∧
            lr.getD 1 Value.null = Value.str e0.2.1))) =
        ((enumPairs 1 rest).map (fun e =>
          [r.getD 0 Value.null, Value.str e.2.1,
           r.getD e.1 Value.null])).filter
          (fun lr => decide (lr.getD 1 Value.null = Value.str e0.2.1)) := by
      apply flatMap_single_bucket f.rows (fun r' => r'.getD 0 Value.null) _ _
        (r.getD 0 Value.null) r hidx hr rfl
      intro a
      by_cases hac : a.getD 0 Value.null = r.getD 0 Value.null
      · rw [if_pos hac]
        apply List.filter_congr
        intro lr hlr
        rcases List.mem_map.mp hlr with ⟨e, _, rfl⟩
        exact decide_eq_decide.mpr ⟨fun h => h.2, fun h => ⟨hac, h⟩⟩
      · rw [if_neg hac]
        apply List.filter_eq_nil_iff.mpr
        intro lr hlr
        rcases List.mem_map.mp hlr with ⟨e, _, rfl⟩
        intro hcontra
        exact hac (of_decide_eq_true hcontra).1
    have hfil : LR.filter (fun lr =>
        decide (lr.getD 0 Value.null = r.getD 0 Value.null ∧
          lr.getD 1 Value.null = Value.str e0.2.1)) =
        [[r.getD 0 Value.null, Value.str e0.2.1, r.getD e0.1 Value.null]] := by
      rw [hLR, filter_flatMap, hbucket, List.filter_map]
      have hpred : (enumPairs 1 rest).filter
          ((fun lr => decide (lr.getD 1 Value.null = Value.str e0.2.1)) ∘
            (fun e => [r.getD 0 Value.null, Value.str e.2.1,
              r.getD e.1 Value.null])) =
          (enumPairs 1 rest).filter (fun e => decide (e.2.1 = e0.2.1)) := by
        apply List.filter_congr
        intro e _
        show decide (Value.str e.2.1 = Value.str e0.2.1) =
          decide (e.2.1 = e0.2.1)
        exact decide_eq_decide.mpr ⟨fun h => by injection h, fun h => by rw [h]⟩
      rw [hpred, enumPairs_filter_name rest hrestnd 1 e0 he0]
      rfl
    rw [hfil]
    rfl
  have hity : (([(idxn, idxt), ("variable", ScalarType.string),
      ("value", t0)] : List (String × ScalarType)).getD 0
        ("", ScalarType.string)).2 = idxt := rfl
  have hwty : (([(idxn, idxt), ("variable", ScalarType.string),
      ("value", t0)] : List (String × ScalarType)).getD 2
        ("", ScalarType.string)).2 = t0 := rfl
  unfold Pivoter.pivot
  rw [hc0, hc1, hc2]
  simp only [hvars, hidxs, hity, hwty]
  refine congrArg Except.ok ?_
  refine congrArg₂ Frame.mk ?_ ?_
  · rw [List.map_map, hschema]
    refine congrArg ((idxn, idxt) :: ·) ?_
    rw [List.map_map]
    have hid : ∀ p ∈ rest,
        (((fun v => ((v : Value).asString, t0)) ∘ Value.str) ∘ Prod.fst) p =
          id p := by
      intro p hp
      simp only [Function.comp_apply, Value.asString, id_eq]
      rw [show t0 = p.2 from (htypes p hp).symm]
    rw [List.map_congr_left hid, List.map_id]
  · rw [List.map_map]
    have hrowsid : ∀ r ∈ f.rows,
        ((fun iv => iv :: ((rest.map Prod.fst).map Value.str).map (fun v =>
          (((LR.filter (fun lr => decide (lr.getD 0 Value.null = iv ∧
              lr.getD 1 Value.null = v))).head?).map
            (fun lr => lr.getD 2 Value.null)).getD Value.null)) ∘
          (fun r => r.getD 0 Value.null)) r = id r := by
      intro r hr
      simp only [Function.comp_apply, id_eq]
      have hvarsmap : ((rest.map Prod.fst).map Value.str).map (fun v =>
          (((LR.filter (fun lr =>
            decide (lr.getD 0 Value.null = r.getD 0 Value.null ∧
              lr.getD 1 Value.null = v))).head?).map
            (fun lr => lr.getD 2 Value.null)).getD Value.null) =
          (enumPairs 1 rest).map (fun e => r.getD e.1 Value.null) := by
        rw [← enumPairs_map_name rest 1, List.map_map, List.map_map]
        apply List.map_congr_left
        intro e he
        exact hcell r hr e he
      rw [hvarsmap, enumPairs_getD_drop rest 1 r
        (by rw [hlen r hr, hschema, List.length_cons]; omega)]
      have hpos : 0 < r.length := by
        rw [hlen r hr, hschema, List.length_cons]
        omega
      have hd := drop_eq_getD_cons r 0 hpos
      rw [List.drop_zero] at hd
      exact hd.symm
    rw [List.map_congr_left hrowsid, List.map_id]

/-- Claim C4 (amended): for a well-formed Frame whose first column is the
index column, with at least one other column, at least one row, all
non-index columns of one scalar type, pairwise-distinct index values, and
an index-column name distinct from "variable" and "value", pivoting the
unpivot over the index column with conflict policy first reproduces the
Frame exactly. -/
theorem pivot_unpivot_roundtrip
    (f : Frame) (idxn : String) (idxt : ScalarType)
    (rest : List (String × ScalarType)) (t0 : ScalarType)
    (hschema : f.schema = (idxn, idxt) :: rest)
    (hrestne : rest ≠ [])
    (htypes : ∀ p ∈ rest, p.2 = t0)
    (hnames : f.names.Nodup)
    (hlen : ∀ r ∈ f.rows, r.length = f.schema.length)
    (hrowsne : f.rows ≠ [])
    (hidx : (f.rows.map (fun r => r.getD 0 Value.null)).Nodup)
    (hnv1 : idxn ≠ "variable")
    (hnv2 : idxn ≠ "value") :
    (Unpivoter.unpivot f [idxn] (rest.map Prod.fst)).bind
      (fun lf => Pivoter.pivot lf idxn "variable" "value"
        ConflictPolicy.first) = .ok f := by
  have hnamelist : f.names = idxn :: rest.map Prod.fst := by
    rw [Frame.names, hschema, List.map_cons]
  have hnodups : (idxn :: rest.map Prod.fst).Nodup := hnamelist ▸ hnames
  have hidxnotin : idxn ∉ rest.map Prod.fst := (List.nodup_cons.mp hnodups).1
  have hrestnd : (rest.map Prod.fst).Nodup := (List.nodup_cons.mp hnodups).2
  rw [roundtrip_unpivot_eq f idxn idxt rest t0 hschema hrestne htypes hidxnotin]
  show Pivoter.pivot
      { schema := [(idxn, idxt), ("variable", ScalarType.string),
                   ("value", t0)]
        rows := f.rows.flatMap (fun r =>
          (enumPairs 1 rest).map (fun e =>
            [r.getD 0 Value.null, Value.str e.2.1,
             r.getD e.1 Value.null])) }
      idxn "variable" "value" ConflictPolicy.first = .ok f
  exact roundtrip_pivot_eq f idxn idxt rest t0 hschema hrestne htypes
    hrestnd hlen hrowsne hidx hnv1 hnv2

/-- A frame with a duplicated index value, on which the unrestricted
round-trip claim fails. -/
def dupIdxFrame : Frame :=
  { schema := [("idx", ScalarType.integer), ("a", ScalarType.integer)]
    rows := [[Value.int 1, Value.int 10], [Value.int 1, Value.int 20]] }

/-- Counterexample to claim C4 as stated: for the frame with index values
[1, 1], pivoting the unpivot with conflict policy first keeps only the
first row per index value, so the round trip does not reproduce the
frame. -/
theorem pivot_unpivot_not_roundtrip :
    ¬ ((Unpivoter.unpivot dupIdxFrame ["idx"] ["a"]).bind
      (fun lf => Pivoter.pivot lf "idx" "variable" "value"
        ConflictPolicy.first) = .ok dupIdxFrame) := by decide

/-- A frame satisfying the amended round-trip hypotheses. -/
def rtFrame : Frame :=
  { schema := [("idx", ScalarType.integer), ("a", ScalarType.integer),
               ("b", ScalarType.integer)]
    rows := [[Value.int 1, Value.int 10, Value.int 20],
             [Value.int 2, Value.int 30, Value.int 40]] }

/-- Witness for the amended claim C4 on a concrete two-row, three-column
frame with distinct index values. -/
theorem pivot_unpivot_roundtrip_witness :
    (Unpivoter.unpivot rtFrame ["idx"] ["a", "b"]).bind
      (fun lf => Pivoter.pivot lf "idx" "variable" "value"
        ConflictPolicy.first) = .ok rtFrame :=
  pivot_unpivot_roundtrip rtFrame "idx" ScalarType.integer
    [("a", ScalarType.integer), ("b", ScalarType.integer)] ScalarType.integer
    (by decide) (by decide) (by decide) (by decide) (by decide) (by decide)
    (by decide) (by decide) (by decide)

theorem valueEntries_map_snd (rs : List (String × ScalarType)) (S : List String) :
    ∀ k, (Unpivoter.valueEntries k rs S).map (fun e => e.2) =
      rs.filter (fun p => decide (p.1 ∈ S)) := by
  induction rs with
  | nil => intro k; rfl
  | cons p rest ih =>
    intro k
    unfold Unpivoter.valueEntries at ih ⊢
    simp only [enumPairs, List.filter_cons]
    by_cases hp : p.1 ∈ S
    · simp [hp, ih (k + 1)]
    · simp [hp, ih (k + 1)]

theorem colIdxAux_enumPairs :
    ∀ rs : List (String × ScalarType), (rs.map Prod.fst).Nodup →
      ∀ (k : Nat) (e : Nat × String × ScalarType), e ∈ enumPairs k rs →
        ∃ j, colIdxAux e.2.1 rs = some j ∧ e.1 = k + j := by
  intro rs
  induction rs with
  | nil => intro _ k e h; cases h
  | cons p rest ih =>
    intro hnd k e h
    rw [List.map_cons] at hnd
    rw [enumPairs] at h
    rcases List.mem_cons.mp h with rfl | hmem
    · exact ⟨0, by simp [colIdxAux], by simp⟩
    · have hname : e.2.1 ∈ rest.map Prod.fst :=
        List.mem_map_of_mem Prod.fst (mem_enumPairs_snd rest (k + 1) e hmem)
      have hne : ¬ p.1 = e.2.1 := by
        intro heq
        exact (List.nodup_cons.mp hnd).1 (heq ▸ hname)
      obtain ⟨j, hj, hjk⟩ := ih (List.nodup_cons.mp hnd).2 (k + 1) e hmem
      refine ⟨j + 1, ?_, by omega⟩
      unfold colIdxAux
      rw [if_neg hne, hj]
      rfl

theorem colIdx_of_mem_valueEntries (f : Frame) (vcols : List String)
    (hnd : f.names.Nodup) :
    ∀ e ∈ Unpivoter.valueEntries 0 f.schema vcols,
      colIdx f e.2.1 = some e.1 := by
  intro e he
  have hnd2 : (f.schema.map Prod.fst).Nodup := hnd
  have hmem : e ∈ enumPairs 0 f.schema := List.mem_of_mem_filter he
  obtain ⟨j, hj, hjk⟩ := colIdxAux_enumPairs f.schema hnd2 0 e hmem
  show colIdxAux e.2.1 f.schema = some e.1
  rw [hj, hjk]
  simp

/-- Claim C7: a successful unpivot has row count equal to the input row
count times the number of value columns, and its rows are, for each
input row in order, one row per value column in schema order, holding
the index values of that row, the value-column name, and the value of
that row in that column, looked up by name. -/
theorem melt_cardinality (f : Frame) (icols vcols : List String) (g : Frame)
    (iis : List Nat)
    (h : Unpivoter.unpivot f icols vcols = .ok g)
    (hk : keyIdxs f icols = some iis)
    (hnames : f.names.Nodup)
    (hv : vcols.Nodup) :
    g.rows.length = f.rows.length * vcols.length ∧
      g.rows = f.rows.flatMap (fun r =>
        (f.schema.filter (fun p => decide (p.1 ∈ vcols))).map (fun p =>
          rowKey iis r ++ [Value.str p.1,
            r.getD ((colIdx f p.1).getD 0) Value.null])) := by
  unfold Unpivoter.unpivot at h
  cases hj : keyIdxs f vcols with
  | none => rw [hk, hj] at h; cases h
  | some js =>
    rw [hk, hj] at h
    simp only [] at h
    have hsub : ∀ v ∈ vcols, v ∈ f.names := by
      intro v hv2
      rcases optMapM_some_forall (colIdx f) vcols js hj v hv2 with ⟨i, hi⟩
      exact colIdxAux_some_mem v f.schema i hi
    have hElen : (Unpivoter.valueEntries 0 f.schema vcols).length = vcols.length := by
      have h1 := valueEntries_names f.schema vcols 0
      have h2 : ((Unpivoter.valueEntries 0 f.schema vcols).map
            (fun e => e.2.1)).length =
          ((f.schema.map Prod.fst).filter (fun n => decide (n ∈ vcols))).length := by
        rw [h1]
      rw [List.length_map] at h2
      rw [h2, ← List.countP_eq_length_filter]
      exact countP_mem_eq_length (f.schema.map Prod.fst) hnames vcols hv hsub
    split at h
    · cases h
    · split at h
      · simp only [Except.ok.injEq] at h
        subst h
        constructor
        · exact length_flatMap_uniform f.rows _ vcols.length
            (fun r => by rw [List.length_map, hElen])
        · refine congrArg f.rows.flatMap (funext fun r => ?_)
          have hstep1 : (Unpivoter.valueEntries 0 f.schema vcols).map (fun e =>
              rowKey iis r ++ [Value.str e.2.1, r.getD e.1 Value.null]) =
              (Unpivoter.valueEntries 0 f.schema vcols).map (fun e =>
                rowKey iis r ++ [Value.str e.2.1,
                  r.getD ((colIdx f e.2.1).getD 0) Value.null]) := by
            apply List.map_congr_left
            intro e he
            rw [colIdx_of_mem_valueEntries f vcols hnames e he]
            rfl
          rw [hstep1, ← valueEntries_map_snd f.schema vcols 0, List.map_map]
          rfl
      · cases h

/-- Witness for claim C7 at the section 8 example frame: unpivoting with
index column cyl and value columns gear and hp yields six rows, two per
input row, carrying the cyl value and then the gear and hp cells of that
row in schema order. -/
theorem melt_cardinality_witness :
    exLong.rows.length = exFrame.rows.length * 2 ∧
      exLong.rows = exFrame.rows.flatMap (fun r =>
        (exFrame.schema.filter (fun p => decide (p.1 ∈ ["gear", "hp"]))).map
          (fun p => rowKey [0] r ++ [Value.str p.1,
            r.getD ((colIdx exFrame p.1).getD 0) Value.null])) :=
  melt_cardinality exFrame ["cyl"] ["gear", "hp"] exLong [0]
    (by decide) (by decide) (by decide) (by decide)
